import Mathlib

/-!
Shallow embedding of the matching/dedup core of the Excel Assignment-Memo
Matcher (`src/app.py`).  Cell values are `Option String` (a `none` models a
missing cell, i.e. a pandas `NaN`); a dataset is the ordered list of its rows,
a row being identified by its 0-based position, exactly as `df.iterrows` /
`df.iloc` expose it for a default integer index.  Fractional statistics
computed with Python's `/` are modelled over `ℚ`, and a `ZeroDivisionError`
caught by the `try`/`except` wrapper of `generate_insights` is modelled by an
explicit error result.
-/

/-- The whitespace class of Python's `str.strip` and of the regex `\s`
(ASCII range): space, tab, newline, carriage return, vertical tab, form feed. -/
def isPySpace (c : Char) : Bool :=
  c == ' ' || c == '\t' || c == '\n' || c == '\r' || c == '\x0b' || c == '\x0c'

/-- Removal of trailing whitespace (the right half of Python's `str.strip`). -/
def stripTrail (l : List Char) : List Char :=
  (l.reverse.dropWhile isPySpace).reverse

/-- Python's `str.strip`: remove trailing, then leading, whitespace. -/
def stripChars (l : List Char) : List Char :=
  List.dropWhile isPySpace (stripTrail l)

/-- The regex substitution `re.sub(r'\s+', ' ', ·)` of `clean_and_normalize_text`:
every maximal run of whitespace characters is replaced by a single space. -/
def collapseWs : List Char → List Char
  | [] => []
  | [c] => if isPySpace c then [' '] else [c]
  | c₁ :: c₂ :: rest =>
    if isPySpace c₁ then
      if isPySpace c₂ then collapseWs (c₂ :: rest)
      else ' ' :: collapseWs (c₂ :: rest)
    else c₁ :: collapseWs (c₂ :: rest)

/-- `clean_and_normalize_text` from `app.py`: a missing value (`pd.isna`)
becomes `""`; otherwise the string is stripped and its internal whitespace
runs are collapsed by `re.sub(r'\s+', ' ', ·)`. -/
def clean_and_normalize_text : Option String → String
  | none => ""
  | some t => String.mk (collapseWs (stripChars t.data))

/-- Python's `str.lower`, character by character. -/
def strLower (s : String) : String := String.mk (s.data.map Char.toLower)

/-- Bool test: the first list is an initial segment of the second. -/
def isPrefixCh : List Char → List Char → Bool
  | [], _ => true
  | _ :: _, [] => false
  | a :: as, b :: bs => a == b && isPrefixCh as bs

/-- Bool test: the first list occurs contiguously inside the second. -/
def occursIn : List Char → List Char → Bool
  | n, [] => isPrefixCh n []
  | n, c :: rest => isPrefixCh n (c :: rest) || occursIn n rest

/-- Python's `needle in haystack` on strings: contiguous substring test. -/
def py_substr (needle haystack : String) : Bool :=
  occursIn needle.data haystack.data

/-- A dataset row restricted to the two columns the core reads;
`none` models a missing (`NaN`) cell. -/
structure Row where
  assignment : Option String
  memo : Option String
deriving DecidableEq

/-- A match tuple `(assign_idx, memo_idx, raw assignment value, raw memo value)`
as built by `find_assignment_matches`. -/
structure MatchRec where
  assign_idx : Nat
  memo_idx : Nat
  assignment_value : Option String
  memo_value : Option String
deriving DecidableEq

/-- The inner loop of `find_assignment_matches`: scan every row as a memo
candidate for the fixed assignment row `a` (whose row is `ra`), skipping the
self pair and empty normalized memo values, and test case-insensitive
substring containment of the normalized values; a hit records the raw
original cell values. -/
def inner_scan (df : List Row) (a : Nat) (ra : Row) : List MatchRec :=
  df.enum.filterMap (fun mp =>
    if a = mp.1 then none
    else if clean_and_normalize_text mp.2.memo = "" then none
    else if py_substr (strLower (clean_and_normalize_text ra.assignment))
                      (strLower (clean_and_normalize_text mp.2.memo))
      then some { assign_idx := a, memo_idx := mp.1,
                  assignment_value := ra.assignment, memo_value := mp.2.memo }
      else none)

/-- `find_assignment_matches` from `app.py`: the outer loop over assignment
rows, skipping rows whose normalized assignment value is empty. -/
def find_assignment_matches (df : List Row) : List MatchRec :=
  df.enum.flatMap (fun ap =>
    if clean_and_normalize_text ap.2.assignment = "" then []
    else inner_scan df ap.1 ap.2)

/-- The unordered pair key `(min(a,m), max(a,m))` used by
`create_filtered_output` to deduplicate bidirectional matches. -/
def pairKey (mt : MatchRec) : Nat × Nat :=
  (min mt.assign_idx mt.memo_idx, max mt.assign_idx mt.memo_idx)

/-- Default row used to express `df.iloc` positional access totally. -/
def emptyRow : Row := { assignment := none, memo := none }

/-- The loop of `create_filtered_output`: walk the matches keeping a set of
already-processed pair keys; an unseen key appends the assignment row and
then the memo row to the output. -/
def filtered_rows_loop (df : List Row) : List MatchRec → List (Nat × Nat) → List Row
  | [], _ => []
  | mt :: rest, seen =>
    if pairKey mt ∈ seen then filtered_rows_loop df rest seen
    else df.getD mt.assign_idx emptyRow :: df.getD mt.memo_idx emptyRow ::
         filtered_rows_loop df rest (pairKey mt :: seen)

/-- `create_filtered_output` from `app.py` (an empty match list yields the
empty output, as the early `pd.DataFrame()` return does). -/
def create_filtered_output (df : List Row) (ms : List MatchRec) : List Row :=
  filtered_rows_loop df ms []

/-- Python's `len(set(...))`: the number of distinct values of a list. -/
def uniqueCount (l : List (Option String)) : Nat := l.dedup.length

/-- One step of building `assignment_frequency`:
`d[v] = d.get(v, 0) + 1` on an insertion-ordered dict, i.e. bump the first
entry with key `v` in place, or append `(v, 1)` if the key is new. -/
def bumpFreq : List (Option String × Nat) → Option String → List (Option String × Nat)
  | [], v => [(v, 1)]
  | (k, c) :: rest, v =>
    if k = v then (k, c + 1) :: rest else (k, c) :: bumpFreq rest v

/-- The `assignment_frequency` dict of `generate_insights`, in insertion
(first-encounter) order. -/
def assignment_frequency (ms : List MatchRec) : List (Option String × Nat) :=
  ms.foldl (fun tbl mt => bumpFreq tbl mt.assignment_value) []

/-- Python's `max(items, key=snd)` over an insertion-ordered dict: a left
scan that replaces the current best only on a strictly larger count, so the
first entry attaining the maximum wins ties. -/
def maxBySnd (l : List (Option String × Nat)) : Option (Option String × Nat) :=
  match l with
  | [] => none
  | p :: rest => some (rest.foldl (fun best q => if best.2 < q.2 then q else best) p)

/-- The scalar fields computed by `generate_insights` (the load-bearing
numbers of the rendered report). -/
structure InsightsReport where
  total_matches : Nat
  unique_assignments : Nat
  unique_memos : Nat
  processing_ratio : ℚ
  most_frequent : Option String × Nat
  avg_matches_per_assignment : ℚ
  output_rows : Nat
deriving DecidableEq

/-- Outcome of `generate_insights`: the fixed no-matches text, a report, or
the error string produced when the `except` clause catches an exception. -/
inductive InsightsResult where
  | noMatches : InsightsResult
  | report : InsightsReport → InsightsResult
  | error : String → InsightsResult
deriving DecidableEq

/-- Python's `/`: raises `ZeroDivisionError` on a zero divisor. -/
def pyDivRat (a b : ℚ) : Except String ℚ :=
  if b = 0 then Except.error "division by zero" else Except.ok (a / b)

/-- `generate_insights` from `app.py`.  The divisions appear in the order the
f-string template evaluates them (processing efficiency first, then average
matches per assignment); a `ZeroDivisionError` is caught by the surrounding
`except` and reported as an error string. -/
def generate_insights (ms : List MatchRec) (total_rows : Nat) : InsightsResult :=
  if ms = [] then InsightsResult.noMatches
  else
    match pyDivRat (ms.length : ℚ) (total_rows : ℚ) with
    | Except.error e => InsightsResult.error e
    | Except.ok ratio =>
      match pyDivRat (ms.length : ℚ)
          ((uniqueCount (ms.map (fun mt => mt.assignment_value))) : ℚ) with
      | Except.error e => InsightsResult.error e
      | Except.ok avg =>
        InsightsResult.report
          { total_matches := ms.length
            unique_assignments := uniqueCount (ms.map (fun mt => mt.assignment_value))
            unique_memos := uniqueCount (ms.map (fun mt => mt.memo_value))
            processing_ratio := ratio
            most_frequent :=
              match maxBySnd (assignment_frequency ms) with
              | some p => p
              | none => (some "N/A", 0)
            avg_matches_per_assignment := avg
            output_rows := ms.length * 2 }

/-- The shape of a parsed spreadsheet as far as `validate_excel_structure`
inspects it: its column labels and its number of rows. -/
structure ExcelFrame where
  columns : List String
  numRows : Nat

/-- pandas `df.empty`: true when either axis has length zero. -/
def ExcelFrame.isEmptyFrame (df : ExcelFrame) : Bool :=
  df.numRows == 0 || df.columns.length == 0

/-- Python's `", ".join`. -/
def joinComma : List String → String
  | [] => ""
  | [s] => s
  | s :: rest => s ++ ", " ++ joinComma rest

/-- The required column names of `validate_excel_structure`. -/
def required_columns : List String := ["Assignment", "Memo Line"]

/-- `validate_excel_structure` from `app.py`. -/
def validate_excel_structure (df : ExcelFrame) : Bool × String :=
  if df.isEmptyFrame then (false, "The uploaded Excel file is empty.")
  else
    let missing := required_columns.filter (fun c => decide (c ∉ df.columns))
    if missing = [] then (true, "File structure is valid.")
    else (false, "Missing required columns: " ++ joinComma missing ++
                 ". Available columns: " ++ joinComma df.columns)

/-- Specification-side helper: the subsequence of a match list keeping, for
each unordered pair key, only its first occurrence (in first-occurrence
order), relative to an initial set of already-seen keys. -/
def firstPerKey : List MatchRec → List (Nat × Nat) → List MatchRec
  | [], _ => []
  | mt :: rest, seen =>
    if pairKey mt ∈ seen then firstPerKey rest seen
    else mt :: firstPerKey rest (pairKey mt :: seen)

/-- Specification-side helper: first occurrences of a list of values, in
first-encounter order, relative to an initial set of already-seen values. -/
def firstOccurAux : List (Option String) → List (Option String) → List (Option String)
  | [], _ => []
  | v :: rest, seen =>
    if v ∈ seen then firstOccurAux rest seen
    else v :: firstOccurAux rest (v :: seen)

/-- First occurrences of a list of values, in first-encounter order. -/
def firstOccur (l : List (Option String)) : List (Option String) :=
  firstOccurAux l []

/-- Specification-side helper: accumulator form of splitting a character list
into its maximal whitespace-free words (the accumulator holds the current
word reversed). -/
def wordsOfAux : List Char → List Char → List (List Char)
  | [], acc => if acc = [] then [] else [acc.reverse]
  | c :: rest, acc =>
    if isPySpace c then
      if acc = [] then wordsOfAux rest []
      else acc.reverse :: wordsOfAux rest []
    else wordsOfAux rest (c :: acc)

/-- Specification-side helper: the whitespace-delimited words of a character
list, in order. -/
def wordsOf (l : List Char) : List (List Char) := wordsOfAux l []

/-- Specification-side helper: join words with exactly one space between
consecutive words. -/
def joinWords : List (List Char) → List Char
  | [] => []
  | [w] => w
  | w :: ws => w ++ ' ' :: joinWords ws

/-- A dataset on which every row's assignment value occurs in every other
row's memo value: three rows of Assignment "A", Memo Line "xAx". -/
def overflowDf : List Row :=
  List.replicate 3 { assignment := some "A", memo := some "xAx" }

/-- The three-row dataset of the spec's concrete scenario. -/
def scenarioDf : List Row :=
  [ { assignment := some "INV-1", memo := some "ref INV-1 paid" },
    { assignment := some "", memo := some "unrelated" },
    { assignment := some "INV-1", memo := some "also INV-1 here" } ]

lemma head?_dropWhile_false {p : Char → Bool} :
    ∀ (l : List Char) (c : Char), (List.dropWhile p l).head? = some c → p c = false := by
  intro l
  induction l with
  | nil => intro c h; simp [List.dropWhile] at h
  | cons a t ih =>
    intro c h
    rw [List.dropWhile_cons] at h
    by_cases ha : p a = true
    · rw [if_pos ha] at h; exact ih c h
    · rw [if_neg ha] at h
      simp at h
      rw [← h]
      exact Bool.eq_false_iff.mpr ha

lemma filter_dropWhile_space :
    ∀ l : List Char,
      (List.dropWhile isPySpace l).filter (fun c => !isPySpace c) =
        l.filter (fun c => !isPySpace c) := by
  intro l
  induction l with
  | nil => rfl
  | cons a t ih =>
    rw [List.dropWhile_cons]
    by_cases ha : isPySpace a = true
    · rw [if_pos ha, ih, List.filter_cons]
      simp [ha]
    · rw [if_neg ha]

lemma filter_stripTrail (l : List Char) :
    (stripTrail l).filter (fun c => !isPySpace c) = l.filter (fun c => !isPySpace c) := by
  unfold stripTrail
  rw [List.filter_reverse, filter_dropWhile_space, List.filter_reverse, List.reverse_reverse]

lemma filter_stripChars (l : List Char) :
    (stripChars l).filter (fun c => !isPySpace c) = l.filter (fun c => !isPySpace c) := by
  unfold stripChars
  rw [filter_dropWhile_space, filter_stripTrail]

lemma getLast?_stripTrail (l : List Char) (c : Char) :
    (stripTrail l).getLast? = some c → isPySpace c = false := by
  unfold stripTrail
  rw [List.getLast?_reverse]
  exact head?_dropWhile_false _ c

lemma getLast?_stripChars (l : List Char) (c : Char) :
    (stripChars l).getLast? = some c → isPySpace c = false := by
  intro h
  obtain ⟨t, ht⟩ := List.dropWhile_suffix (l := stripTrail l) isPySpace
  apply getLast?_stripTrail l c
  rw [← ht, List.getLast?_append]
  unfold stripChars at h
  rw [h]
  rfl

lemma head?_stripChars (l : List Char) (c : Char) :
    (stripChars l).head? = some c → isPySpace c = false :=
  head?_dropWhile_false _ c

lemma collapseWs_head (c : Char) (rest : List Char) (hc : isPySpace c = false) :
    (collapseWs (c :: rest)).head? = some c := by
  cases rest with
  | nil => simp [collapseWs, hc]
  | cons d t => simp [collapseWs, hc]

lemma collapseWs_ne_nil : ∀ l : List Char, l ≠ [] → collapseWs l ≠ [] := by
  intro l
  induction l using collapseWs.induct with
  | case1 => intro h; exact absurd rfl h
  | case2 c hc => intro _; simp [collapseWs, hc]
  | case3 c hc => intro _; simp [collapseWs, hc]
  | case4 c₁ c₂ rest h1 h2 ih => intro _; simpa [collapseWs, h1, h2] using ih (by simp)
  | case5 c₁ c₂ rest h1 h2 ih => intro _; simp [collapseWs, h1, h2]
  | case6 c₁ c₂ rest h1 ih => intro _; simp [collapseWs, h1]

lemma collapseWs_space_eq_blank :
    ∀ l : List Char, ∀ c ∈ collapseWs l, isPySpace c = true → c = ' ' := by
  intro l
  induction l using collapseWs.induct with
  | case1 => intro c hc; simp [collapseWs] at hc
  | case2 d hd =>
    intro c hc _
    simp [collapseWs, hd] at hc
    exact hc
  | case3 d hd =>
    intro c hc hsp
    simp [collapseWs, hd] at hc
    rw [hc] at hsp
    exact absurd hsp hd
  | case4 c₁ c₂ rest h1 h2 ih =>
    intro c hc hsp
    simp only [collapseWs, if_pos h1, if_pos h2] at hc
    exact ih c hc hsp
  | case5 c₁ c₂ rest h1 h2 ih =>
    intro c hc hsp
    simp only [collapseWs, if_pos h1, if_neg h2, List.mem_cons] at hc
    rcases hc with hc | hc
    · exact hc
    · exact ih c hc hsp
  | case6 c₁ c₂ rest h1 ih =>
    intro c hc hsp
    simp only [collapseWs, if_neg h1, List.mem_cons] at hc
    rcases hc with hc | hc
    · rw [hc] at hsp; exact absurd hsp h1
    · exact ih c hc hsp

lemma collapseWs_chain' :
    ∀ l : List Char,
      List.Chain' (fun a b => isPySpace a = false ∨ isPySpace b = false) (collapseWs l) := by
  intro l
  induction l using collapseWs.induct with
  | case1 => simp [collapseWs]
  | case2 d hd => simp [collapseWs, hd]
  | case3 d hd => simp [collapseWs, hd]
  | case4 c₁ c₂ rest h1 h2 ih => simpa [collapseWs, h1, h2] using ih
  | case5 c₁ c₂ rest h1 h2 ih =>
    simp only [collapseWs, if_pos h1, if_neg h2]
    rw [List.chain'_cons']
    refine ⟨?_, ih⟩
    intro y hy
    right
    have hc₂ : isPySpace c₂ = false := Bool.eq_false_iff.mpr h2
    rw [collapseWs_head c₂ rest hc₂] at hy
    simp at hy
    rw [← hy]
    exact hc₂
  | case6 c₁ c₂ rest h1 ih =>
    simp only [collapseWs, if_neg h1]
    rw [List.chain'_cons']
    refine ⟨?_, ih⟩
    intro y _
    left
    exact Bool.eq_false_iff.mpr h1

lemma collapseWs_getLast? :
    ∀ l : List Char, ∀ c : Char, l.getLast? = some c → isPySpace c = false →
      (collapseWs l).getLast? = some c := by
  intro l
  induction l using collapseWs.induct with
  | case1 => intro c h _; simp at h
  | case2 d hd =>
    intro c h hc
    simp [List.getLast?] at h
    rw [← h] at hc
    rw [hd] at hc
    exact absurd hc (by simp)
  | case3 d hd =>
    intro c h hc
    simp [List.getLast?] at h
    subst h
    simp [collapseWs, hc, List.getLast?]
  | case4 c₁ c₂ rest h1 h2 ih =>
    intro c h hc
    rw [List.getLast?_cons_cons] at h
    simp only [collapseWs, if_pos h1, if_pos h2]
    exact ih c h hc
  | case5 c₁ c₂ rest h1 h2 ih =>
    intro c h hc
    rw [List.getLast?_cons_cons] at h
    simp only [collapseWs, if_pos h1, if_neg h2]
    have hne := collapseWs_ne_nil (c₂ :: rest) (by simp)
    rcases List.exists_cons_of_ne_nil hne with ⟨y, t, hyt⟩
    rw [hyt, List.getLast?_cons_cons, ← hyt]
    exact ih c h hc
  | case6 c₁ c₂ rest h1 ih =>
    intro c h hc
    rw [List.getLast?_cons_cons] at h
    simp only [collapseWs, if_neg h1]
    have hne := collapseWs_ne_nil (c₂ :: rest) (by simp)
    rcases List.exists_cons_of_ne_nil hne with ⟨y, t, hyt⟩
    rw [hyt, List.getLast?_cons_cons, ← hyt]
    exact ih c h hc

lemma collapseWs_filter :
    ∀ l : List Char,
      (collapseWs l).filter (fun c => !isPySpace c) = l.filter (fun c => !isPySpace c) := by
  intro l
  induction l using collapseWs.induct with
  | case1 => rfl
  | case2 d hd => simp [collapseWs, hd, List.filter_cons, show isPySpace ' ' = true from rfl]
  | case3 d hd => simp [collapseWs, Bool.eq_false_iff.mpr hd, List.filter_cons]
  | case4 c₁ c₂ rest h1 h2 ih =>
    simp only [collapseWs, if_pos h1, if_pos h2, ih, List.filter_cons]
    simp [h1]
  | case5 c₁ c₂ rest h1 h2 ih =>
    simp only [collapseWs, if_pos h1, if_neg h2, ih, List.filter_cons]
    simp [h1, show isPySpace ' ' = true from rfl, ih]
  | case6 c₁ c₂ rest h1 ih =>
    simp only [collapseWs, if_neg h1, ih, List.filter_cons]

lemma collapseWs_stripChars_head (l : List Char) (c : Char) :
    (collapseWs (stripChars l)).head? = some c → isPySpace c = false := by
  intro h
  cases hs : stripChars l with
  | nil => rw [hs] at h; simp [collapseWs] at h
  | cons a t =>
    have ha : isPySpace a = false := head?_stripChars l a (by rw [hs]; rfl)
    rw [hs, collapseWs_head a t ha] at h
    simp at h
    rw [← h]
    exact ha

lemma collapseWs_stripChars_getLast (l : List Char) (c : Char) :
    (collapseWs (stripChars l)).getLast? = some c → isPySpace c = false := by
  intro h
  cases hs : stripChars l with
  | nil => rw [hs] at h; simp [collapseWs] at h
  | cons a t =>
    have hne : (a :: t) ≠ [] := by simp
    have hd : (a :: t).getLast? = some ((a :: t).getLast hne) :=
      List.getLast?_eq_getLast _ hne
    have hdn : isPySpace ((a :: t).getLast hne) = false :=
      getLast?_stripChars l _ (by rw [hs]; exact hd)
    have hcl := collapseWs_getLast? (a :: t) _ hd hdn
    rw [hs, hcl] at h
    simp at h
    rw [← h]
    exact hdn

lemma wordsOfAux_spec_cons :
    ∀ (l : List Char) (acc : List Char), acc ≠ [] →
      wordsOfAux l acc =
        (acc.reverse ++ l.takeWhile (fun c => !isPySpace c)) ::
          wordsOf (l.dropWhile (fun c => !isPySpace c)) := by
  intro l
  induction l with
  | nil => intro acc h; simp [wordsOfAux, h, wordsOf]
  | cons c t ih =>
    intro acc h
    by_cases hc : isPySpace c = true
    · rw [show wordsOfAux (c :: t) acc = acc.reverse :: wordsOfAux t [] from by
        simp [wordsOfAux, hc, h]]
      rw [List.takeWhile_cons, List.dropWhile_cons]
      rw [if_neg (by simp [hc]), if_neg (by simp [hc])]
      simp [wordsOf, wordsOfAux, hc]
    · rw [show wordsOfAux (c :: t) acc = wordsOfAux t (c :: acc) from by
        simp [wordsOfAux, hc]]
      rw [ih (c :: acc) (by simp)]
      rw [List.takeWhile_cons, List.dropWhile_cons]
      rw [if_pos (by simp [hc]), if_pos (by simp [hc])]
      simp

lemma wordsOf_cons_nonspace (c : Char) (t : List Char) (hc : isPySpace c = false) :
    wordsOf (c :: t) =
      ((c :: t).takeWhile (fun x => !isPySpace x)) ::
        wordsOf ((c :: t).dropWhile (fun x => !isPySpace x)) := by
  rw [show wordsOf (c :: t) = wordsOfAux t [c] from by simp [wordsOf, wordsOfAux, hc]]
  rw [wordsOfAux_spec_cons t [c] (by simp)]
  rw [List.takeWhile_cons, List.dropWhile_cons, if_pos (by simp [hc]), if_pos (by simp [hc])]
  simp

lemma wordsOfAux_collapseWs :
    ∀ (x : List Char) (acc : List Char),
      wordsOfAux (collapseWs x) acc = wordsOfAux x acc := by
  intro x
  induction x using collapseWs.induct with
  | case1 => intro _; rfl
  | case2 c hc =>
    intro acc
    rw [show collapseWs [c] = [' '] from by simp [collapseWs, hc]]
    by_cases h : acc = [] <;>
      simp [wordsOfAux, hc, h, show isPySpace ' ' = true from rfl]
  | case3 c hc =>
    intro acc
    rw [show collapseWs [c] = [c] from by simp [collapseWs, hc]]
  | case4 c₁ c₂ rest h1 h2 ih =>
    intro acc
    rw [show collapseWs (c₁ :: c₂ :: rest) = collapseWs (c₂ :: rest) from by
      simp [collapseWs, h1, h2]]
    rw [ih acc]
    by_cases h : acc = [] <;> simp [wordsOfAux, h1, h2, h]
  | case5 c₁ c₂ rest h1 h2 ih =>
    intro acc
    rw [show collapseWs (c₁ :: c₂ :: rest) = ' ' :: collapseWs (c₂ :: rest) from by
      simp [collapseWs, h1, h2]]
    by_cases h : acc = [] <;>
      simp [wordsOfAux, h1, h, show isPySpace ' ' = true from rfl, ih]
  | case6 c₁ c₂ rest h1 ih =>
    intro acc
    rw [show collapseWs (c₁ :: c₂ :: rest) = c₁ :: collapseWs (c₂ :: rest) from by
      simp [collapseWs, h1]]
    simp [wordsOfAux, h1, ih]

lemma wordsOfAux_append_space :
    ∀ (l : List Char) (acc : List Char) (s : Char), isPySpace s = true →
      wordsOfAux (l ++ [s]) acc = wordsOfAux l acc := by
  intro l
  induction l with
  | nil =>
    intro acc s hs
    by_cases h : acc = [] <;> simp [wordsOfAux, hs, h]
  | cons c t ih =>
    intro acc s hs
    rw [List.cons_append]
    by_cases hc : isPySpace c = true
    · by_cases h : acc = [] <;> simp [wordsOfAux, hc, h, ih _ s hs]
    · simp [wordsOfAux, hc, ih _ s hs]

lemma wordsOfAux_append_spaces :
    ∀ (w : List Char), (∀ c ∈ w, isPySpace c = true) →
      ∀ (m : List Char) (acc : List Char), wordsOfAux (m ++ w) acc = wordsOfAux m acc := by
  intro w
  induction w using List.reverseRecOn with
  | nil => intro _ m acc; simp
  | append_singleton w s ih =>
    intro hall m acc
    rw [← List.append_assoc]
    rw [wordsOfAux_append_space (m ++ w) acc s (hall s (by simp))]
    exact ih (fun c hc => hall c (by simp [hc])) m acc

lemma wordsOf_dropWhile_leading :
    ∀ l : List Char, wordsOf (List.dropWhile isPySpace l) = wordsOf l := by
  intro l
  induction l with
  | nil => rfl
  | cons c t ih =>
    rw [List.dropWhile_cons]
    by_cases hc : isPySpace c = true
    · rw [if_pos hc, ih]
      simp [wordsOf, wordsOfAux, hc]
    · rw [if_neg hc]

lemma wordsOf_stripTrail (l : List Char) : wordsOf (stripTrail l) = wordsOf l := by
  have hdec : stripTrail l ++ (l.reverse.takeWhile isPySpace).reverse = l := by
    unfold stripTrail
    rw [← List.reverse_append, List.takeWhile_append_dropWhile, List.reverse_reverse]
  have hall : ∀ c ∈ (l.reverse.takeWhile isPySpace).reverse, isPySpace c = true := by
    intro c hc
    rw [List.mem_reverse] at hc
    exact List.mem_takeWhile_imp hc
  calc wordsOf (stripTrail l)
      = wordsOfAux (stripTrail l ++ (l.reverse.takeWhile isPySpace).reverse) [] :=
        (wordsOfAux_append_spaces _ hall (stripTrail l) []).symm
    _ = wordsOf l := by rw [hdec]; rfl

lemma wordsOf_stripChars (l : List Char) : wordsOf (stripChars l) = wordsOf l := by
  unfold stripChars
  rw [wordsOf_dropWhile_leading, wordsOf_stripTrail]

lemma joinWords_wordsOf_canonical :
    ∀ (n : Nat) (m : List Char), m.length ≤ n →
      (∀ c, m.head? = some c → isPySpace c = false) →
      (∀ c, m.getLast? = some c → isPySpace c = false) →
      (∀ c ∈ m, isPySpace c = true → c = ' ') →
      List.Chain' (fun a b => isPySpace a = false ∨ isPySpace b = false) m →
      joinWords (wordsOf m) = m := by
  intro n
  induction n with
  | zero =>
    intro m hlen _ _ _ _
    rw [Nat.le_zero, List.length_eq_zero] at hlen
    rw [hlen]
    rfl
  | succ n ih =>
    intro m hlen h1 h2 h3 h4
    cases m with
    | nil => rfl
    | cons c t =>
      have hc : isPySpace c = false := h1 c rfl
      rw [wordsOf_cons_nonspace c t hc]
      cases hr : (c :: t).dropWhile (fun x => !isPySpace x) with
      | nil =>
        have hm : (c :: t).takeWhile (fun x => !isPySpace x) = c :: t := by
          have hten := List.takeWhile_append_dropWhile (fun x => !isPySpace x) (c :: t)
          rw [hr, List.append_nil] at hten
          exact hten
        rw [hm]
        rfl
      | cons s r' =>
        have hs_space : isPySpace s = true := by
          have hps := head?_dropWhile_false (p := fun x => !isPySpace x) (c :: t) s
            (by rw [hr]; rfl)
          simpa using hps
        have hdecomp : (c :: t).takeWhile (fun x => !isPySpace x) ++ s :: r' = c :: t := by
          rw [← hr]
          exact List.takeWhile_append_dropWhile _ _
        have hs_mem : s ∈ c :: t := by
          rw [← hdecomp]
          exact List.mem_append_right _ (List.mem_cons_self _ _)
        have hs_blank : s = ' ' := h3 s hs_mem hs_space
        have hchain_r : List.Chain'
            (fun a b => isPySpace a = false ∨ isPySpace b = false) (s :: r') := by
          rw [← hdecomp] at h4
          exact (List.chain'_append.mp h4).2.1
        cases r' with
        | nil =>
          exfalso
          have hlast : (c :: t).getLast? = some s := by
            rw [← hdecomp]
            exact List.getLast?_concat _
          rw [h2 s hlast] at hs_space
          exact absurd hs_space (by simp)
        | cons d r'' =>
          have hd : isPySpace d = false := by
            have hrel := (List.chain'_cons'.mp hchain_r).1 d rfl
            rcases hrel with hrel | hrel
            · rw [hrel] at hs_space
              exact absurd hs_space (by simp)
            · exact hrel
          have hlen' : (d :: r'').length ≤ n := by
            have hlm : (c :: t).length =
                ((c :: t).takeWhile (fun x => !isPySpace x)).length +
                  (s :: d :: r'').length := by
              rw [← List.length_append, hdecomp]
            simp only [List.length_cons] at hlm hlen ⊢
            omega
          have hid : joinWords (wordsOf (d :: r'')) = d :: r'' := by
            apply ih (d :: r'') hlen'
            · intro c' hc'
              simp at hc'
              subst hc'
              exact hd
            · intro c' hc'
              apply h2 c'
              rw [← hdecomp, List.getLast?_append, List.getLast?_cons_cons, hc']
              rfl
            · intro c' hc' hcsp
              apply h3 c' _ hcsp
              rw [← hdecomp]
              exact List.mem_append_right _ (List.mem_cons_of_mem _ hc')
            · exact hchain_r.tail
          rw [show wordsOf (s :: d :: r'') = wordsOf (d :: r'') from by
            simp [wordsOf, wordsOfAux, hs_space]]
          rw [wordsOf_cons_nonspace d r'' hd]
          show (c :: t).takeWhile (fun x => !isPySpace x) ++ ' ' ::
            joinWords (((d :: r'').takeWhile (fun x => !isPySpace x)) ::
              wordsOf ((d :: r'').dropWhile (fun x => !isPySpace x))) = c :: t
          rw [← wordsOf_cons_nonspace d r'' hd, hid, ← hs_blank, hdecomp]

lemma collapseWs_stripChars_eq_joinWords (l : List Char) :
    collapseWs (stripChars l) = joinWords (wordsOf l) := by
  have hid := joinWords_wordsOf_canonical (collapseWs (stripChars l)).length
    (collapseWs (stripChars l)) le_rfl
    (collapseWs_stripChars_head l) (collapseWs_stripChars_getLast l)
    (collapseWs_space_eq_blank (stripChars l)) (collapseWs_chain' (stripChars l))
  rw [← hid]
  congr 1
  calc wordsOf (collapseWs (stripChars l))
      = wordsOf (stripChars l) := wordsOfAux_collapseWs (stripChars l) []
    _ = wordsOf l := wordsOf_stripChars l

/-- Claim C4: `clean_and_normalize_text` is a total pure function: a missing
value yields `""`, and otherwise the result is exactly the single-space join
of the input's whitespace-delimited words — leading/trailing whitespace is
removed and every internal run of whitespace is collapsed to a single space
in place (e.g. " Foo  Bar " becomes "Foo Bar").  Consequently the result has
no whitespace at either end, any whitespace character of the result is a
plain space with no two adjacent, and the non-whitespace characters are
preserved in order. -/
theorem clean_and_normalize_text_spec :
    clean_and_normalize_text none = "" ∧
    clean_and_normalize_text (some " Foo  Bar ") = "Foo Bar" ∧
    ∀ s : String,
      clean_and_normalize_text (some s) = String.mk (joinWords (wordsOf s.data)) ∧
      ((clean_and_normalize_text (some s)).data.head?.all fun c => !isPySpace c) = true ∧
      ((clean_and_normalize_text (some s)).data.getLast?.all fun c => !isPySpace c) = true ∧
      ((clean_and_normalize_text (some s)).data.all fun c => !isPySpace c || c == ' ') = true ∧
      List.Chain' (fun a b => isPySpace a = false ∨ isPySpace b = false)
        (clean_and_normalize_text (some s)).data ∧
      (clean_and_normalize_text (some s)).data.filter (fun c => !isPySpace c) =
        s.data.filter (fun c => !isPySpace c) := by
  refine ⟨rfl, by decide, ?_⟩
  intro s
  have hdata : (clean_and_normalize_text (some s)).data = collapseWs (stripChars s.data) := rfl
  refine ⟨?_, ?_, ?_, ?_, ?_, ?_⟩
  · show String.mk (collapseWs (stripChars s.data)) = String.mk (joinWords (wordsOf s.data))
    exact congrArg String.mk (collapseWs_stripChars_eq_joinWords s.data)
  · simp only [hdata]
    cases h : (collapseWs (stripChars s.data)).head? with
    | none => rfl
    | some c =>
      have hc := collapseWs_stripChars_head s.data c h
      simp [Option.all, hc]
  · simp only [hdata]
    cases h : (collapseWs (stripChars s.data)).getLast? with
    | none => rfl
    | some c =>
      have hc := collapseWs_stripChars_getLast s.data c h
      simp [Option.all, hc]
  · simp only [hdata]
    rw [List.all_eq_true]
    intro c hc
    by_cases hsp : isPySpace c = true
    · have hbl := collapseWs_space_eq_blank (stripChars s.data) c hc hsp
      simp [hbl]
    · simp [Bool.eq_false_iff.mpr hsp]
  · simp only [hdata]
    exact collapseWs_chain' (stripChars s.data)
  · simp only [hdata]
    rw [collapseWs_filter, filter_stripChars]

lemma isPrefixCh_iff : ∀ n l : List Char, isPrefixCh n l = true ↔ n <+: l := by
  intro n
  induction n with
  | nil =>
    intro l
    simp [isPrefixCh]
  | cons a as ih =>
    intro l
    cases l with
    | nil => simp [isPrefixCh, List.prefix_nil]
    | cons b bs =>
      show (a == b && isPrefixCh as bs) = true ↔ _
      rw [Bool.and_eq_true, beq_iff_eq, ih bs, List.cons_prefix_cons]

lemma occursIn_iff : ∀ l n : List Char, occursIn n l = true ↔ n <:+: l := by
  intro l
  induction l with
  | nil =>
    intro n
    show isPrefixCh n [] = true ↔ _
    rw [isPrefixCh_iff, List.prefix_nil, List.infix_nil]
  | cons c rest ih =>
    intro n
    show (isPrefixCh n (c :: rest) || occursIn n rest) = true ↔ _
    rw [Bool.or_eq_true, isPrefixCh_iff, ih, List.infix_cons_iff]

lemma py_substr_iff (needle haystack : String) :
    py_substr needle haystack = true ↔ needle.data <:+: haystack.data :=
  occursIn_iff haystack.data needle.data

lemma mem_inner_scan (df : List Row) (a : Nat) (ra : Row) (mt : MatchRec) :
    mt ∈ inner_scan df a ra ↔
      ∃ rm : Row, df[mt.memo_idx]? = some rm ∧
        a ≠ mt.memo_idx ∧
        clean_and_normalize_text rm.memo ≠ "" ∧
        py_substr (strLower (clean_and_normalize_text ra.assignment))
                  (strLower (clean_and_normalize_text rm.memo)) = true ∧
        mt.assign_idx = a ∧ mt.assignment_value = ra.assignment ∧
        mt.memo_value = rm.memo := by
  unfold inner_scan
  rw [List.mem_filterMap]
  constructor
  · rintro ⟨⟨m, rm⟩, hmem, hf⟩
    rw [List.mem_enum_iff_getElem?] at hmem
    by_cases h1 : a = m
    · rw [if_pos h1] at hf; simp at hf
    rw [if_neg h1] at hf
    by_cases h2 : clean_and_normalize_text rm.memo = ""
    · rw [if_pos h2] at hf; simp at hf
    rw [if_neg h2] at hf
    by_cases h3 : py_substr (strLower (clean_and_normalize_text ra.assignment))
        (strLower (clean_and_normalize_text rm.memo)) = true
    · rw [if_pos h3] at hf
      rw [Option.some_inj] at hf
      subst hf
      exact ⟨rm, hmem, h1, h2, h3, rfl, rfl, rfl⟩
    · rw [if_neg h3] at hf; simp at hf
  · rintro ⟨rm, hget, hne, hmemo, hsub, hassign, hav, hmv⟩
    refine ⟨(mt.memo_idx, rm), List.mem_enum_iff_getElem?.mpr hget, ?_⟩
    rw [if_neg hne, if_neg hmemo, if_pos hsub]
    cases mt with
    | mk ai mi av mv =>
      simp only at hassign hav hmv
      subst hassign
      subst hav
      subst hmv
      rfl

/-- Claim C1: membership in the result of `find_assignment_matches` is characterized
exactly: a match `(a, m, av, mv)` is emitted iff `a ≠ m`, row `a` exists with a
non-empty normalized assignment value, row `m` exists with a non-empty
normalized memo value, the lowercase normalized assignment value occurs as a
contiguous substring of the lowercase normalized memo value, and the carried
texts `av`, `mv` are the raw (non-normalized) original cell values; in
particular no emitted match has equal assignment and memo row indices. -/
theorem find_assignment_matches_mem_spec :
    ∀ df : List Row,
      (∀ mt : MatchRec,
        mt ∈ find_assignment_matches df ↔
          ∃ ra rm : Row,
            df[mt.assign_idx]? = some ra ∧ df[mt.memo_idx]? = some rm ∧
            mt.assign_idx ≠ mt.memo_idx ∧
            clean_and_normalize_text ra.assignment ≠ "" ∧
            clean_and_normalize_text rm.memo ≠ "" ∧
            ((strLower (clean_and_normalize_text ra.assignment)).data <:+:
              (strLower (clean_and_normalize_text rm.memo)).data) ∧
            mt.assignment_value = ra.assignment ∧ mt.memo_value = rm.memo) ∧
      ∀ mt ∈ find_assignment_matches df, mt.assign_idx ≠ mt.memo_idx := by
  intro df
  have hmain : ∀ mt : MatchRec,
      mt ∈ find_assignment_matches df ↔
        ∃ ra rm : Row,
          df[mt.assign_idx]? = some ra ∧ df[mt.memo_idx]? = some rm ∧
          mt.assign_idx ≠ mt.memo_idx ∧
          clean_and_normalize_text ra.assignment ≠ "" ∧
          clean_and_normalize_text rm.memo ≠ "" ∧
          ((strLower (clean_and_normalize_text ra.assignment)).data <:+:
            (strLower (clean_and_normalize_text rm.memo)).data) ∧
          mt.assignment_value = ra.assignment ∧ mt.memo_value = rm.memo := by
    intro mt
    unfold find_assignment_matches
    rw [List.mem_flatMap]
    constructor
    · rintro ⟨⟨ai, ra⟩, hap, hmem⟩
      rw [List.mem_enum_iff_getElem?] at hap
      by_cases h0 : clean_and_normalize_text ra.assignment = ""
      · rw [if_pos h0] at hmem; simp at hmem
      rw [if_neg h0] at hmem
      rw [mem_inner_scan] at hmem
      obtain ⟨rm, hget, hne, hmemo, hsub, hassign, hav, hmv⟩ := hmem
      refine ⟨ra, rm, ?_, hget, ?_, h0, hmemo, (py_substr_iff _ _).mp hsub, hav, hmv⟩
      · rw [hassign]; exact hap
      · rw [hassign]; exact hne
    · rintro ⟨ra, rm, hgeta, hgetm, hne, hav0, hmemo, hsub, hav, hmv⟩
      refine ⟨(mt.assign_idx, ra), List.mem_enum_iff_getElem?.mpr hgeta, ?_⟩
      rw [if_neg hav0, mem_inner_scan]
      exact ⟨rm, hgetm, hne, hmemo, (py_substr_iff _ _).mpr hsub, rfl, hav, hmv⟩
  refine ⟨hmain, ?_⟩
  intro mt hmt
  obtain ⟨_, _, _, _, hne, _⟩ := (hmain mt).mp hmt
  exact hne

lemma enum_pairwise_fst (df : List Row) :
    df.enum.Pairwise (fun p q => p.1 < q.1) := by
  have h := List.pairwise_lt_range df.length
  rw [← List.enum_map_fst, List.pairwise_map] at h
  exact h

lemma inner_scan_assign_idx (df : List Row) (a : Nat) (ra : Row) :
    ∀ mt ∈ inner_scan df a ra, mt.assign_idx = a := by
  intro mt hmt
  obtain ⟨_, _, _, _, _, hassign, _⟩ := (mem_inner_scan df a ra mt).mp hmt
  exact hassign

lemma inner_scan_pairwise_memo (df : List Row) (a : Nat) (ra : Row) :
    (inner_scan df a ra).Pairwise (fun x y => x.memo_idx < y.memo_idx) := by
  unfold inner_scan
  refine List.Pairwise.filterMap _ ?_ (enum_pairwise_fst df)
  intro p q hpq x hx y hy
  simp only [Option.mem_def] at hx hy
  have hxm : x.memo_idx = p.1 := by
    split_ifs at hx with h1 h2 h3
    · rw [Option.some_inj] at hx; rw [← hx]
  have hym : y.memo_idx = q.1 := by
    split_ifs at hy with h1 h2 h3
    · rw [Option.some_inj] at hy; rw [← hy]
  rw [hxm, hym]
  exact hpq

/-- Claim C5: the match list of `find_assignment_matches` is produced in full nested
scan order: strictly ascending assignment row index, and ascending memo row
index among matches sharing an assignment row index. -/
theorem find_assignment_matches_ordered :
    ∀ df : List Row,
      (find_assignment_matches df).Pairwise
        (fun x y => x.assign_idx < y.assign_idx ∨
          (x.assign_idx = y.assign_idx ∧ x.memo_idx < y.memo_idx)) := by
  intro df
  unfold find_assignment_matches
  rw [List.pairwise_flatMap]
  have hbranch : ∀ ap : Nat × Row,
      ∀ x ∈ (if clean_and_normalize_text ap.2.assignment = "" then []
             else inner_scan df ap.1 ap.2), x.assign_idx = ap.1 := by
    intro ap x hx
    by_cases h : clean_and_normalize_text ap.2.assignment = ""
    · rw [if_pos h] at hx; simp at hx
    · rw [if_neg h] at hx; exact inner_scan_assign_idx df ap.1 ap.2 x hx
  constructor
  · intro ap _
    by_cases h : clean_and_normalize_text ap.2.assignment = ""
    · simp [h]
    · rw [if_neg h]
      refine List.Pairwise.imp_of_mem ?_ (inner_scan_pairwise_memo df ap.1 ap.2)
      intro x y hx hy hlt
      right
      rw [inner_scan_assign_idx df ap.1 ap.2 x hx, inner_scan_assign_idx df ap.1 ap.2 y hy]
      exact ⟨rfl, hlt⟩
  · refine List.Pairwise.imp ?_ (enum_pairwise_fst df)
    intro ap bp hlt x hx y hy
    left
    rw [hbranch ap x hx, hbranch bp y hy]
    exact hlt

/-- Claim C9: `find_assignment_matches` is a pure function of the dataset, so two
invocations on the same immutable dataset return identical, identically
ordered match lists. -/
theorem find_assignment_matches_deterministic :
    ∀ df : List Row, find_assignment_matches df = find_assignment_matches df :=
  fun _ => rfl

lemma filtered_rows_loop_eq (df : List Row) :
    ∀ (ms : List MatchRec) (seen : List (Nat × Nat)),
      filtered_rows_loop df ms seen =
        (firstPerKey ms seen).flatMap
          (fun mt => [df.getD mt.assign_idx emptyRow, df.getD mt.memo_idx emptyRow]) := by
  intro ms
  induction ms with
  | nil => intro seen; rfl
  | cons mt rest ih =>
    intro seen
    by_cases h : pairKey mt ∈ seen
    · simp [filtered_rows_loop, firstPerKey, if_pos h, ih]
    · simp [filtered_rows_loop, firstPerKey, if_neg h, ih]

lemma mem_firstPerKey_keys :
    ∀ (ms : List MatchRec) (seen : List (Nat × Nat)) (k : Nat × Nat),
      k ∈ (firstPerKey ms seen).map pairKey ↔ (k ∈ ms.map pairKey ∧ k ∉ seen) := by
  intro ms
  induction ms with
  | nil => intro seen k; simp [firstPerKey]
  | cons mt rest ih =>
    intro seen k
    by_cases h : pairKey mt ∈ seen
    · rw [show firstPerKey (mt :: rest) seen = firstPerKey rest seen from by
        simp [firstPerKey, if_pos h]]
      rw [ih]
      simp only [List.map_cons, List.mem_cons]
      constructor
      · rintro ⟨hk, hs⟩; exact ⟨Or.inr hk, hs⟩
      · rintro ⟨hk | hk, hs⟩
        · rw [hk] at hs; exact absurd h hs
        · exact ⟨hk, hs⟩
    · rw [show firstPerKey (mt :: rest) seen = mt :: firstPerKey rest (pairKey mt :: seen) from by
        simp [firstPerKey, if_neg h]]
      simp only [List.map_cons, List.mem_cons, ih, List.mem_cons]
      constructor
      · rintro (hk | ⟨hk, hs⟩)
        · rw [hk]; exact ⟨Or.inl rfl, h⟩
        · refine ⟨Or.inr hk, fun hc => hs (Or.inr hc)⟩
      · rintro ⟨hk | hk, hs⟩
        · exact Or.inl hk
        · by_cases hkey : k = pairKey mt
          · exact Or.inl hkey
          · exact Or.inr ⟨hk, by simp [hkey, hs]⟩

lemma nodup_firstPerKey_keys :
    ∀ (ms : List MatchRec) (seen : List (Nat × Nat)),
      ((firstPerKey ms seen).map pairKey).Nodup := by
  intro ms
  induction ms with
  | nil => intro seen; simp [firstPerKey]
  | cons mt rest ih =>
    intro seen
    by_cases h : pairKey mt ∈ seen
    · rw [show firstPerKey (mt :: rest) seen = firstPerKey rest seen from by
        simp [firstPerKey, if_pos h]]
      exact ih seen
    · rw [show firstPerKey (mt :: rest) seen = mt :: firstPerKey rest (pairKey mt :: seen) from by
        simp [firstPerKey, if_neg h]]
      rw [List.map_cons, List.nodup_cons]
      refine ⟨?_, ih _⟩
      intro hc
      rw [mem_firstPerKey_keys] at hc
      exact hc.2 (List.mem_cons_self _ _)

lemma firstPerKey_length (ms : List MatchRec) :
    (firstPerKey ms []).length = (ms.map pairKey).toFinset.card := by
  have h1 : ((firstPerKey ms []).map pairKey).toFinset = (ms.map pairKey).toFinset := by
    apply Finset.ext
    intro k
    simp only [List.mem_toFinset, mem_firstPerKey_keys]
    simp
  calc (firstPerKey ms []).length
      = ((firstPerKey ms []).map pairKey).length := by rw [List.length_map]
    _ = ((firstPerKey ms []).map pairKey).dedup.length := by
        rw [List.dedup_eq_self.mpr (nodup_firstPerKey_keys ms [])]
    _ = ((firstPerKey ms []).map pairKey).toFinset.card := (List.card_toFinset _).symm
    _ = (ms.map pairKey).toFinset.card := by rw [h1]

lemma flatMap_pairs_length (f g : MatchRec → Row) :
    ∀ l : List MatchRec, (l.flatMap (fun mt => [f mt, g mt])).length = 2 * l.length := by
  intro l
  induction l with
  | nil => rfl
  | cons mt rest ih =>
    rw [List.flatMap_cons, List.length_append, ih, List.length_cons]
    simp
    ring

/-- Claim C2: `create_filtered_output` equals the concatenation, over the matches
kept by first-occurrence pair-key deduplication (in first-occurrence order),
of the two-row block [assignment row, memo row]; hence each unique unordered
pair contributes its two original rows exactly once and contiguously with the
assignment row first, the output length is exactly `2 * k` for `k` the number
of distinct unordered pair keys among the matches, and an empty match list
yields the empty output. -/
theorem create_filtered_output_spec :
    ∀ (df : List Row) (ms : List MatchRec),
      create_filtered_output df ms =
        (firstPerKey ms []).flatMap
          (fun mt => [df.getD mt.assign_idx emptyRow, df.getD mt.memo_idx emptyRow]) ∧
      (create_filtered_output df ms).length = 2 * (ms.map pairKey).toFinset.card ∧
      create_filtered_output df [] = [] := by
  intro df ms
  have heq := filtered_rows_loop_eq df ms []
  refine ⟨heq, ?_, rfl⟩
  rw [create_filtered_output, heq, flatMap_pairs_length, firstPerKey_length]

lemma bumpFreq_keys (tbl : List (Option String × Nat)) (v : Option String) :
    (bumpFreq tbl v).map Prod.fst =
      if v ∈ tbl.map Prod.fst then tbl.map Prod.fst else tbl.map Prod.fst ++ [v] := by
  induction tbl with
  | nil => simp [bumpFreq]
  | cons e rest ih =>
    obtain ⟨k, c⟩ := e
    by_cases h : k = v
    · simp [bumpFreq, h]
    · rw [show bumpFreq ((k, c) :: rest) v = (k, c) :: bumpFreq rest v from by
        simp [bumpFreq, h]]
      rw [List.map_cons, ih, List.map_cons]
      by_cases hv : v ∈ rest.map Prod.fst
      · rw [if_pos hv, if_pos (by simp [hv])]
      · rw [if_neg hv, if_neg (by simp [hv, Ne.symm h])]
        simp

lemma firstOccurAux_congr :
    ∀ (l seen₁ seen₂ : List (Option String)),
      (∀ x, x ∈ seen₁ ↔ x ∈ seen₂) →
      firstOccurAux l seen₁ = firstOccurAux l seen₂ := by
  intro l
  induction l with
  | nil => intro _ _ _; rfl
  | cons v rest ih =>
    intro s₁ s₂ hs
    by_cases h : v ∈ s₁
    · rw [show firstOccurAux (v :: rest) s₁ = firstOccurAux rest s₁ from by
          simp [firstOccurAux, h],
        show firstOccurAux (v :: rest) s₂ = firstOccurAux rest s₂ from by
          simp [firstOccurAux, (hs v).mp h]]
      exact ih s₁ s₂ hs
    · rw [show firstOccurAux (v :: rest) s₁ = v :: firstOccurAux rest (v :: s₁) from by
          simp [firstOccurAux, h],
        show firstOccurAux (v :: rest) s₂ = v :: firstOccurAux rest (v :: s₂) from by
          have h2 : v ∉ s₂ := fun hc => h ((hs v).mpr hc)
          simp [firstOccurAux, h2]]
      rw [ih (v :: s₁) (v :: s₂) (by intro x; simp [hs x])]

lemma mem_firstOccurAux :
    ∀ (l seen : List (Option String)) (x : Option String),
      x ∈ firstOccurAux l seen ↔ (x ∈ l ∧ x ∉ seen) := by
  intro l
  induction l with
  | nil => intro seen x; simp [firstOccurAux]
  | cons v rest ih =>
    intro seen x
    by_cases h : v ∈ seen
    · rw [show firstOccurAux (v :: rest) seen = firstOccurAux rest seen from by
        simp [firstOccurAux, h]]
      rw [ih]
      simp only [List.mem_cons]
      constructor
      · rintro ⟨hx, hs⟩; exact ⟨Or.inr hx, hs⟩
      · rintro ⟨hx | hx, hs⟩
        · rw [hx] at hs; exact absurd h hs
        · exact ⟨hx, hs⟩
    · rw [show firstOccurAux (v :: rest) seen = v :: firstOccurAux rest (v :: seen) from by
        simp [firstOccurAux, h]]
      simp only [List.mem_cons, ih]
      constructor
      · rintro (hx | ⟨hx, hs⟩)
        · rw [hx]; exact ⟨Or.inl rfl, h⟩
        · exact ⟨Or.inr hx, fun hc => hs (Or.inr hc)⟩
      · rintro ⟨hx | hx, hs⟩
        · exact Or.inl hx
        · by_cases hxv : x = v
          · exact Or.inl hxv
          · exact Or.inr ⟨hx, by simp [hxv, hs]⟩

lemma nodup_firstOccurAux :
    ∀ (l seen : List (Option String)), (firstOccurAux l seen).Nodup := by
  intro l
  induction l with
  | nil => intro seen; simp [firstOccurAux]
  | cons v rest ih =>
    intro seen
    by_cases h : v ∈ seen
    · rw [show firstOccurAux (v :: rest) seen = firstOccurAux rest seen from by
        simp [firstOccurAux, h]]
      exact ih seen
    · rw [show firstOccurAux (v :: rest) seen = v :: firstOccurAux rest (v :: seen) from by
        simp [firstOccurAux, h]]
      rw [List.nodup_cons]
      refine ⟨?_, ih _⟩
      intro hc
      rw [mem_firstOccurAux] at hc
      exact hc.2 (List.mem_cons_self _ _)

lemma foldl_bump_keys :
    ∀ (ms : List MatchRec) (tbl : List (Option String × Nat)),
      ((ms.foldl (fun t mt => bumpFreq t mt.assignment_value) tbl).map Prod.fst) =
        tbl.map Prod.fst ++
          firstOccurAux (ms.map fun mt => mt.assignment_value) (tbl.map Prod.fst) := by
  intro ms
  induction ms with
  | nil => intro tbl; simp [firstOccurAux]
  | cons mt rest ih =>
    intro tbl
    rw [List.foldl_cons, ih, bumpFreq_keys, List.map_cons]
    by_cases h : mt.assignment_value ∈ tbl.map Prod.fst
    · rw [if_pos h]
      rw [show firstOccurAux (mt.assignment_value :: rest.map fun mt => mt.assignment_value)
            (tbl.map Prod.fst) =
          firstOccurAux (rest.map fun mt => mt.assignment_value) (tbl.map Prod.fst) from by
        simp [firstOccurAux, h]]
    · rw [if_neg h]
      rw [show firstOccurAux (mt.assignment_value :: rest.map fun mt => mt.assignment_value)
            (tbl.map Prod.fst) =
          mt.assignment_value :: firstOccurAux (rest.map fun mt => mt.assignment_value)
            (mt.assignment_value :: tbl.map Prod.fst) from by
        simp [firstOccurAux, h]]
      rw [firstOccurAux_congr (rest.map fun mt => mt.assignment_value)
            (tbl.map Prod.fst ++ [mt.assignment_value])
            (mt.assignment_value :: tbl.map Prod.fst) (by intro x; simp; tauto)]
      simp

lemma assignment_frequency_keys (ms : List MatchRec) :
    (assignment_frequency ms).map Prod.fst = firstOccur (ms.map fun mt => mt.assignment_value) := by
  unfold assignment_frequency firstOccur
  rw [foldl_bump_keys]
  rfl

lemma assignment_frequency_keys_nodup (ms : List MatchRec) :
    ((assignment_frequency ms).map Prod.fst).Nodup := by
  rw [assignment_frequency_keys]
  exact nodup_firstOccurAux _ _

lemma mem_assignment_frequency_keys (ms : List MatchRec) (k : Option String) :
    k ∈ (assignment_frequency ms).map Prod.fst ↔
      k ∈ ms.map fun mt => mt.assignment_value := by
  rw [assignment_frequency_keys]
  unfold firstOccur
  rw [mem_firstOccurAux]
  simp

lemma mem_bumpFreq :
    ∀ (tbl : List (Option String × Nat)) (v : Option String) (p : Option String × Nat),
      (tbl.map Prod.fst).Nodup → p ∈ bumpFreq tbl v →
      (p ∈ tbl ∧ p.1 ≠ v) ∨
        (p.1 = v ∧ ∃ c, p.2 = c + 1 ∧
          ((v, c) ∈ tbl ∨ (c = 0 ∧ v ∉ tbl.map Prod.fst))) := by
  intro tbl
  induction tbl with
  | nil =>
    intro v p _ hp
    simp [bumpFreq] at hp
    right
    rw [hp]
    exact ⟨rfl, 0, rfl, Or.inr ⟨rfl, by simp⟩⟩
  | cons e rest ih =>
    intro v p hnd hp
    obtain ⟨k, c0⟩ := e
    rw [List.map_cons, List.nodup_cons] at hnd
    by_cases h : k = v
    · rw [show bumpFreq ((k, c0) :: rest) v = (k, c0 + 1) :: rest from by
        simp [bumpFreq, h]] at hp
      rcases List.mem_cons.mp hp with hp | hp
      · right
        rw [hp]
        exact ⟨h, c0, rfl, Or.inl (by rw [← h]; exact List.mem_cons_self _ _)⟩
      · left
        refine ⟨List.mem_cons_of_mem _ hp, ?_⟩
        intro hpv
        apply hnd.1
        rw [h, ← hpv]
        exact List.mem_map.mpr ⟨p, hp, rfl⟩
    · rw [show bumpFreq ((k, c0) :: rest) v = (k, c0) :: bumpFreq rest v from by
        simp [bumpFreq, h]] at hp
      rcases List.mem_cons.mp hp with hp | hp
      · left
        rw [hp]
        exact ⟨List.mem_cons_self _ _, h⟩
      · rcases ih v p hnd.2 hp with ⟨hmem, hne⟩ | ⟨hpv, c, hc, hrest⟩
        · exact Or.inl ⟨List.mem_cons_of_mem _ hmem, hne⟩
        · right
          refine ⟨hpv, c, hc, ?_⟩
          rcases hrest with hrest | ⟨hc0, hnm⟩
          · exact Or.inl (List.mem_cons_of_mem _ hrest)
          · refine Or.inr ⟨hc0, ?_⟩
            rw [List.map_cons]
            intro hcm
            rcases List.mem_cons.mp hcm with hcm | hcm
            · exact h hcm.symm
            · exact hnm hcm

lemma assignment_frequency_append_singleton (ms : List MatchRec) (mt : MatchRec) :
    assignment_frequency (ms ++ [mt]) =
      bumpFreq (assignment_frequency ms) mt.assignment_value := by
  unfold assignment_frequency
  rw [List.foldl_append]
  rfl

lemma assignment_frequency_counts :
    ∀ (ms : List MatchRec), ∀ p ∈ assignment_frequency ms,
      p.2 = (ms.filter (fun mt => mt.assignment_value = p.1)).length := by
  intro ms
  induction ms using List.reverseRecOn with
  | nil => intro p hp; simp [assignment_frequency] at hp
  | append_singleton ms mt ih =>
    intro p hp
    rw [assignment_frequency_append_singleton] at hp
    have hnd := assignment_frequency_keys_nodup ms
    rcases mem_bumpFreq (assignment_frequency ms) mt.assignment_value p hnd hp with
      ⟨hmem, hne⟩ | ⟨hpv, c, hc, hrest⟩
    · have hmtne : ¬ (mt.assignment_value = p.1) := fun hcontra => hne hcontra.symm
      rw [List.filter_append, List.length_append, ih p hmem,
        show List.filter (fun x => decide (x.assignment_value = p.1)) [mt] = [] from by
          simp [List.filter_cons, hmtne]]
      simp
    · rw [List.filter_append, List.length_append, hc, hpv]
      have hone :
          (List.filter (fun x => decide (x.assignment_value = mt.assignment_value)) [mt]).length
            = 1 := by
        simp [List.filter_cons]
      rw [hone]
      rcases hrest with hrest | ⟨hc0, hnm⟩
      · have hcount : c =
            (List.filter (fun x => decide (x.assignment_value = mt.assignment_value)) ms).length :=
          ih (mt.assignment_value, c) hrest
        rw [hcount]
      · have hzero :
            (List.filter (fun x => decide (x.assignment_value = mt.assignment_value)) ms).length
              = 0 := by
          rw [List.length_eq_zero, List.filter_eq_nil_iff]
          intro x hx
          simp only [decide_eq_true_eq]
          intro hcontra
          apply hnm
          rw [mem_assignment_frequency_keys, ← hcontra]
          exact List.mem_map.mpr ⟨x, hx, rfl⟩
        rw [hzero, hc0]

lemma maxScan_spec :
    ∀ (rest : List (Option String × Nat)) (p : Option String × Nat),
      (∃ l₁ l₂, p :: rest =
          l₁ ++ (rest.foldl (fun best x => if best.2 < x.2 then x else best) p) :: l₂ ∧
        ∀ x ∈ l₁, x.2 < (rest.foldl (fun best x => if best.2 < x.2 then x else best) p).2) ∧
      ∀ x ∈ p :: rest, x.2 ≤ (rest.foldl (fun best x => if best.2 < x.2 then x else best) p).2 := by
  intro rest
  induction rest with
  | nil =>
    intro p
    constructor
    · exact ⟨[], [], rfl, by simp⟩
    · intro x hx
      simp at hx
      rw [hx, List.foldl_nil]
  | cons a t ih =>
    intro p
    rw [List.foldl_cons]
    by_cases h : p.2 < a.2
    · rw [if_pos h]
      obtain ⟨⟨l₁, l₂, hsplit, hlt⟩, hmax⟩ := ih a
      have hq : a.2 ≤ (t.foldl (fun best x => if best.2 < x.2 then x else best) a).2 :=
        hmax a (List.mem_cons_self _ _)
      refine ⟨⟨p :: l₁, l₂, ?_, ?_⟩, ?_⟩
      · rw [List.cons_append, ← hsplit]
      · intro x hx
        rcases List.mem_cons.mp hx with hx | hx
        · rw [hx]; exact lt_of_lt_of_le h hq
        · exact hlt x hx
      · intro x hx
        rcases List.mem_cons.mp hx with hx | hx
        · rw [hx]; exact le_of_lt (lt_of_lt_of_le h hq)
        · exact hmax x hx
    · rw [if_neg h]
      obtain ⟨⟨l₁, l₂, hsplit, hlt⟩, hmax⟩ := ih p
      have ha : a.2 ≤ p.2 := Nat.le_of_not_lt h
      have hp : p.2 ≤ (t.foldl (fun best x => if best.2 < x.2 then x else best) p).2 :=
        hmax p (List.mem_cons_self _ _)
      refine ⟨?_, ?_⟩
      · cases l₁ with
        | nil =>
          simp only [List.nil_append, List.cons.injEq] at hsplit
          refine ⟨[], a :: t, ?_, by simp⟩
          rw [List.nil_append, ← hsplit.1]
        | cons b l₁' =>
          simp only [List.cons_append, List.cons.injEq] at hsplit
          refine ⟨p :: a :: l₁', l₂, ?_, ?_⟩
          · conv_rhs => rw [List.cons_append, List.cons_append]
            rw [← hsplit.2]
          · intro x hx
            have hplt : p.2 < (t.foldl (fun best x => if best.2 < x.2 then x else best) p).2 := by
              have := hlt b (List.mem_cons_self _ _)
              rw [← hsplit.1] at this
              exact this
            rcases List.mem_cons.mp hx with hx | hx
            · rw [hx]; exact hplt
            rcases List.mem_cons.mp hx with hx | hx
            · rw [hx]; exact lt_of_le_of_lt ha hplt
            · exact hlt x (List.mem_cons_of_mem _ hx)
      · intro x hx
        rcases List.mem_cons.mp hx with hx | hx
        · rw [hx]; exact hp
        rcases List.mem_cons.mp hx with hx | hx
        · rw [hx]; exact le_trans ha hp
        · exact hmax x (List.mem_cons_of_mem _ hx)

lemma bumpFreq_ne_nil (tbl : List (Option String × Nat)) (v : Option String) :
    bumpFreq tbl v ≠ [] := by
  cases tbl with
  | nil => simp [bumpFreq]
  | cons e rest =>
    obtain ⟨k, c⟩ := e
    by_cases h : k = v <;> simp [bumpFreq, h]

lemma foldl_bump_ne_nil :
    ∀ (ms : List MatchRec) (tbl : List (Option String × Nat)), tbl ≠ [] →
      ms.foldl (fun t mt => bumpFreq t mt.assignment_value) tbl ≠ [] := by
  intro ms
  induction ms with
  | nil => intro tbl h; exact h
  | cons mt rest ih =>
    intro tbl _
    rw [List.foldl_cons]
    exact ih _ (bumpFreq_ne_nil tbl mt.assignment_value)

lemma assignment_frequency_ne_nil (ms : List MatchRec) (h : ms ≠ []) :
    assignment_frequency ms ≠ [] := by
  cases ms with
  | nil => exact absurd rfl h
  | cons mt rest =>
    unfold assignment_frequency
    rw [List.foldl_cons]
    exact foldl_bump_ne_nil rest _ (bumpFreq_ne_nil [] mt.assignment_value)

lemma uniqueCount_ne_zero (l : List (Option String)) (h : l ≠ []) : uniqueCount l ≠ 0 := by
  unfold uniqueCount
  rw [Ne, List.length_eq_zero]
  intro hc
  apply h
  rcases l with _ | ⟨a, t⟩
  · rfl
  · have : a ∈ List.dedup (a :: t) := List.mem_dedup.mpr (List.mem_cons_self _ _)
    rw [hc] at this
    simp at this

lemma generate_insights_report_eq (ms : List MatchRec) (n : Nat)
    (hms : ms ≠ []) (hn : n ≠ 0) :
    generate_insights ms n = InsightsResult.report
      { total_matches := ms.length
        unique_assignments := uniqueCount (ms.map fun mt => mt.assignment_value)
        unique_memos := uniqueCount (ms.map fun mt => mt.memo_value)
        processing_ratio := (ms.length : ℚ) / (n : ℚ)
        most_frequent :=
          match maxBySnd (assignment_frequency ms) with
          | some p => p
          | none => (some "N/A", 0)
        avg_matches_per_assignment :=
          (ms.length : ℚ) / ((uniqueCount (ms.map fun mt => mt.assignment_value)) : ℚ)
        output_rows := ms.length * 2 } := by
  have hn' : ((n : ℚ)) ≠ 0 := by exact_mod_cast hn
  have hu : ((uniqueCount (ms.map fun mt => mt.assignment_value)) : ℚ) ≠ 0 := by
    exact_mod_cast uniqueCount_ne_zero _ (by simp [hms])
  unfold generate_insights pyDivRat
  rw [if_neg hms, if_neg hn', if_neg hu]

lemma generate_insights_zero_rows (ms : List MatchRec) (hms : ms ≠ []) :
    generate_insights ms 0 = InsightsResult.error "division by zero" := by
  unfold generate_insights pyDivRat
  rw [if_neg hms]
  norm_num

lemma generate_insights_empty (n : Nat) :
    generate_insights [] n = InsightsResult.noMatches := rfl

lemma generate_insights_report_inv (ms : List MatchRec) (n : Nat) (r : InsightsReport)
    (h : generate_insights ms n = InsightsResult.report r) : ms ≠ [] ∧ n ≠ 0 := by
  by_cases hms : ms = []
  · rw [hms, generate_insights_empty] at h
    exact absurd h (by simp)
  by_cases hn : n = 0
  · rw [hn, generate_insights_zero_rows ms hms] at h
    exact absurd h (by simp)
  · exact ⟨hms, hn⟩

/-- Claim C6: whenever `generate_insights` produces a report, its `most_frequent`
entry is an entry of the insertion-ordered frequency table with a maximal
count, every table entry strictly before it has a strictly smaller count (the
stable max-scan tie-break: the first-encountered maximal assignment wins);
moreover the table's keys are exactly the distinct raw assignment texts in
first-encounter order and each entry's count is the number of matches carrying
that assignment text. -/
theorem generate_insights_most_frequent_spec :
    ∀ (ms : List MatchRec) (n : Nat) (r : InsightsReport),
      generate_insights ms n = InsightsResult.report r →
      (r.most_frequent ∈ assignment_frequency ms ∧
        (∀ q ∈ assignment_frequency ms, q.2 ≤ r.most_frequent.2) ∧
        (∃ l₁ l₂, assignment_frequency ms = l₁ ++ r.most_frequent :: l₂ ∧
          ∀ q ∈ l₁, q.2 < r.most_frequent.2)) ∧
      (assignment_frequency ms).map Prod.fst =
        firstOccur (ms.map fun mt => mt.assignment_value) ∧
      (∀ p ∈ assignment_frequency ms,
        p.2 = (ms.filter (fun mt => mt.assignment_value = p.1)).length) := by
  intro ms n r h
  obtain ⟨hms, hn⟩ := generate_insights_report_inv ms n r h
  rw [generate_insights_report_eq ms n hms hn] at h
  have h' := (InsightsResult.report.injEq _ _).mp h
  have hmf : r.most_frequent =
      match maxBySnd (assignment_frequency ms) with
      | some p => p
      | none => (some "N/A", 0) := by
    rw [← h']
  refine ⟨?_, assignment_frequency_keys ms, assignment_frequency_counts ms⟩
  cases htbl : assignment_frequency ms with
  | nil => exact absurd htbl (assignment_frequency_ne_nil ms hms)
  | cons p rest =>
    have hmax : maxBySnd (assignment_frequency ms) =
        some (rest.foldl (fun best q => if best.2 < q.2 then q else best) p) := by
      rw [htbl]; rfl
    rw [hmax] at hmf
    have hmf2 : r.most_frequent =
        rest.foldl (fun best q => if best.2 < q.2 then q else best) p := hmf
    obtain ⟨⟨l₁, l₂, hsplit, hlt⟩, hmaxall⟩ := maxScan_spec rest p
    rw [hmf2]
    refine ⟨?_, ?_, l₁, l₂, hsplit, hlt⟩
    · rw [hsplit]
      exact List.mem_append_right _ (List.mem_cons_self _ _)
    · exact hmaxall

theorem generate_insights_most_frequent_spec_witness :
    ∃ r : InsightsReport,
      generate_insights
        [{ assign_idx := 0, memo_idx := 1,
           assignment_value := some "A", memo_value := some "zAz" }] 1 =
        InsightsResult.report r ∧
      r.most_frequent ∈ assignment_frequency
        [{ assign_idx := 0, memo_idx := 1,
           assignment_value := some "A", memo_value := some "zAz" }] := by
  refine ⟨_, generate_insights_report_eq _ 1 (by simp) (by simp), ?_⟩
  exact (generate_insights_most_frequent_spec _ 1 _
    (generate_insights_report_eq _ 1 (by simp) (by simp))).1.1

/-- Claim C7: the summarizer handles degenerate inputs without an uncaught division
fault: an empty match list yields the fixed no-matches report (no ratio is
computed), and a zero total row count with a non-empty match list yields a
reported error value (the caught `ZeroDivisionError`), not an undefined
result. -/
theorem generate_insights_degenerate_spec :
    (∀ n : Nat, generate_insights [] n = InsightsResult.noMatches) ∧
    (∀ ms : List MatchRec, ms ≠ [] →
      generate_insights ms 0 = InsightsResult.error "division by zero") := by
  constructor
  · intro n
    exact generate_insights_empty n
  · intro ms hms
    exact generate_insights_zero_rows ms hms

theorem generate_insights_degenerate_spec_witness :
    generate_insights [] 3 = InsightsResult.noMatches ∧
    generate_insights
      [{ assign_idx := 0, memo_idx := 1,
         assignment_value := some "A", memo_value := some "zAz" }] 0 =
      InsightsResult.error "division by zero" :=
  ⟨generate_insights_degenerate_spec.1 3,
   generate_insights_degenerate_spec.2 _ (by simp)⟩

/-- Claim C10: the processing ratio is not bounded by 1: on `overflowDf` the
directed match count (6) exceeds the row count (3), and the reported ratio is
2, so the rendered "Processing efficiency" percentage exceeds 100%. -/
theorem processing_ratio_unbounded :
    ∃ r : InsightsReport,
      generate_insights (find_assignment_matches overflowDf) overflowDf.length =
        InsightsResult.report r ∧
      overflowDf.length < (find_assignment_matches overflowDf).length ∧
      1 < r.processing_ratio := by
  refine ⟨_, generate_insights_report_eq _ _ (by decide) (by decide), by decide, ?_⟩
  show (1 : ℚ) <
    ((find_assignment_matches overflowDf).length : ℚ) / ((overflowDf.length : Nat) : ℚ)
  rw [show (find_assignment_matches overflowDf).length = 6 from by decide,
    show overflowDf.length = 3 from by decide]
  norm_num

/-- Claim C3: on the concrete scenario dataset, `find_assignment_matches` returns
exactly the two matches (0,2) and (2,0) in that order carrying the raw texts,
`create_filtered_output` emits exactly rows 0 and 2 (length 2), and the
summary fields are totalMatches 2, uniqueAssignments 1, uniqueMemos 2,
mostFrequent ("INV-1", 2), averageMatchesPerAssignment 2, and
processingRatio 2/3. -/
theorem scenario_spec :
    find_assignment_matches scenarioDf =
      [ { assign_idx := 0, memo_idx := 2,
          assignment_value := some "INV-1", memo_value := some "also INV-1 here" },
        { assign_idx := 2, memo_idx := 0,
          assignment_value := some "INV-1", memo_value := some "ref INV-1 paid" } ] ∧
    create_filtered_output scenarioDf (find_assignment_matches scenarioDf) =
      [ { assignment := some "INV-1", memo := some "ref INV-1 paid" },
        { assignment := some "INV-1", memo := some "also INV-1 here" } ] ∧
    ∃ r : InsightsReport,
      generate_insights (find_assignment_matches scenarioDf) 3 =
        InsightsResult.report r ∧
      r.total_matches = 2 ∧ r.unique_assignments = 1 ∧ r.unique_memos = 2 ∧
      r.most_frequent = (some "INV-1", 2) ∧
      r.avg_matches_per_assignment = 2 ∧
      r.processing_ratio = 2 / 3 := by
  refine ⟨by decide, by decide, _,
    generate_insights_report_eq _ 3 (by decide) (by decide),
    by decide, by decide, by decide, by decide, ?_, ?_⟩
  · show ((find_assignment_matches scenarioDf).length : ℚ) /
      ((uniqueCount ((find_assignment_matches scenarioDf).map
        (fun mt => mt.assignment_value)) : Nat) : ℚ) = 2
    rw [show (find_assignment_matches scenarioDf).length = 2 from by decide,
      show uniqueCount ((find_assignment_matches scenarioDf).map
        (fun mt => mt.assignment_value)) = 1 from by decide]
    norm_num
  · show ((find_assignment_matches scenarioDf).length : ℚ) / ((3 : Nat) : ℚ) = 2 / 3
    rw [show (find_assignment_matches scenarioDf).length = 2 from by decide]
    norm_num

lemma infix_append_str (x : List Char) (s t : String) :
    x <:+: s.data → x <:+: (s ++ t).data := by
  rintro ⟨u, v, huv⟩
  refine ⟨u, v ++ t.data, ?_⟩
  rw [String.data_append, ← huv]
  simp

lemma infix_append_str' (x : List Char) (s t : String) :
    x <:+: t.data → x <:+: (s ++ t).data := by
  rintro ⟨u, v, huv⟩
  refine ⟨s.data ++ u, v, ?_⟩
  rw [String.data_append, ← huv]
  simp

lemma mem_joinComma (l : List String) (s : String) (h : s ∈ l) :
    s.data <:+: (joinComma l).data := by
  induction l with
  | nil => simp at h
  | cons a rest ih =>
    rcases List.mem_cons.mp h with h | h
    · subst h
      cases rest with
      | nil => exact ⟨[], [], by simp [joinComma]⟩
      | cons b t =>
        rw [show joinComma (s :: b :: t) = s ++ ", " ++ joinComma (b :: t) from rfl]
        exact infix_append_str _ _ _ (infix_append_str _ _ _ ⟨[], [], by simp⟩)
    · cases rest with
      | nil => simp at h
      | cons b t =>
        rw [show joinComma (a :: b :: t) = a ++ ", " ++ joinComma (b :: t) from rfl]
        exact infix_append_str' _ _ _ (ih h)

/-- Claim C8: `validate_excel_structure` reports failure exactly when the frame is
empty (either axis) or a required column ("Assignment" or "Memo Line") is
absent; on a non-empty frame with missing columns, the returned message
contains every missing column name and every available column name. -/
theorem validate_excel_structure_spec :
    ∀ df : ExcelFrame,
      ((validate_excel_structure df).1 = false ↔
        (df.isEmptyFrame = true ∨ "Assignment" ∉ df.columns ∨ "Memo Line" ∉ df.columns)) ∧
      (df.isEmptyFrame = false →
        required_columns.filter (fun c => decide (c ∉ df.columns)) ≠ [] →
        (∀ c ∈ required_columns.filter (fun c => decide (c ∉ df.columns)),
          c.data <:+: ((validate_excel_structure df).2).data) ∧
        (∀ c ∈ df.columns, c.data <:+: ((validate_excel_structure df).2).data)) := by
  intro df
  constructor
  · by_cases he : df.isEmptyFrame = true
    · simp only [validate_excel_structure, if_pos he]
      simp [he]
    · simp only [validate_excel_structure, if_neg he]
      by_cases hm : required_columns.filter (fun c => decide (c ∉ df.columns)) = []
      · rw [if_pos hm]
        constructor
        · intro hfalse
          exact absurd hfalse (by simp)
        · rintro (h | h | h)
          · exact absurd h he
          · rw [List.filter_eq_nil_iff] at hm
            have := hm "Assignment" (by simp [required_columns])
            simp at this
            exact absurd this h
          · rw [List.filter_eq_nil_iff] at hm
            have := hm "Memo Line" (by simp [required_columns])
            simp at this
            exact absurd this h
      · rw [if_neg hm]
        constructor
        · intro _
          obtain ⟨c, hc⟩ := List.exists_mem_of_ne_nil _ hm
          rw [List.mem_filter] at hc
          have hcreq : c = "Assignment" ∨ c = "Memo Line" := by
            have := hc.1
            simp [required_columns] at this
            exact this
          have hcnot : c ∉ df.columns := by
            have := hc.2
            simp at this
            exact this
          rcases hcreq with hcr | hcr
          · exact Or.inr (Or.inl (hcr ▸ hcnot))
          · exact Or.inr (Or.inr (hcr ▸ hcnot))
        · intro _
          rfl
  · intro he hm
    simp only [validate_excel_structure, if_neg (by rw [he]; simp : ¬df.isEmptyFrame = true),
      if_neg hm]
    constructor
    · intro c hc
      exact infix_append_str _ _ _ (infix_append_str _ _ _
        (infix_append_str' _ _ _ (mem_joinComma _ c hc)))
    · intro c hc
      exact infix_append_str' _ _ _ (mem_joinComma _ c hc)

theorem validate_excel_structure_spec_witness :
    (validate_excel_structure { columns := ["Foo"], numRows := 2 }).1 = false ∧
    "Assignment".data <:+:
      ((validate_excel_structure { columns := ["Foo"], numRows := 2 }).2).data ∧
    "Foo".data <:+:
      ((validate_excel_structure { columns := ["Foo"], numRows := 2 }).2).data := by
  refine ⟨?_, ?_, ?_⟩
  · exact (validate_excel_structure_spec { columns := ["Foo"], numRows := 2 }).1.mpr
      (Or.inr (Or.inl (by decide)))
  · exact ((validate_excel_structure_spec { columns := ["Foo"], numRows := 2 }).2
      (by decide) (by decide)).1 "Assignment" (by decide)
  · exact ((validate_excel_structure_spec { columns := ["Foo"], numRows := 2 }).2
      (by decide) (by decide)).2 "Foo" (by decide)

theorem find_assignment_matches_mem_spec_witness :
    ({ assign_idx := 0, memo_idx := 2, assignment_value := some "INV-1",
       memo_value := some "also INV-1 here" } : MatchRec).assign_idx ≠
      ({ assign_idx := 0, memo_idx := 2, assignment_value := some "INV-1",
         memo_value := some "also INV-1 here" } : MatchRec).memo_idx :=
  (find_assignment_matches_mem_spec scenarioDf).2 _ (by decide)
